import Mathlib

/-
Verification of the slot-map container family of
src/iceoryx2-bb/container/src/slotmap.rs.

The slot map is embedded shallowly: `usize` values are `Nat` (no arithmetic in
the source can overflow: the only operations on indices are comparisons and
`key + 1` for an iterator key that is strictly below the array length), a
`SlotMapKey` is its underlying numeric value, and every fallible operation
returns an `Option` whose `none` models a fatal error (an out-of-bounds array
access or a failed `expect`).  The backing `MetaVec`/`MetaQueue` primitives are
not part of the sources; they are modelled from the spec as a capacity-bounded
sequence and a capacity-bounded FIFO queue.
-/

set_option maxHeartbeats 1000000

namespace SlotMapVerif

/-- Sentinel value marking an unused key-indirection entry; `usize::MAX` in the
source (`const INVALID_KEY: usize = usize::MAX`). -/
def INVALID_KEY : Nat := 2 ^ 64 - 1

/-- Modelled from the spec: the capacity-bounded sequence abstraction (the
`MetaVec` of the container crate, whose source is not included) that the slot
map consumes, with indexed read/write and a fixed capacity.  Indexed access
outside the current length is an out-of-bounds access, i.e. a fatal error,
modelled by the `Option`-valued accessors below. -/
structure MetaVec (α : Type) where
  elements : List α
  capacity : Nat
deriving DecidableEq

namespace MetaVec

/-- Number of stored elements (`MetaVec::len`). -/
def len (v : MetaVec α) : Nat := v.elements.length

/-- Indexed read (`Index for MetaVec`); `none` models the out-of-bounds fatal
error. -/
def get (v : MetaVec α) (i : Nat) : Option α := v.elements[i]?

/-- Indexed write (`IndexMut for MetaVec`); `none` models the out-of-bounds
fatal error. -/
def set (v : MetaVec α) (i : Nat) (a : α) : Option (MetaVec α) :=
  if i < v.elements.length then some { v with elements := v.elements.set i a } else none

/-- Modelled from the spec: push appends when the sequence is below capacity
and fails, leaving the sequence unchanged, otherwise. -/
def push_impl (v : MetaVec α) (a : α) : MetaVec α :=
  if v.elements.length < v.capacity then { v with elements := v.elements ++ [a] } else v

end MetaVec

/-- Modelled from the spec: the capacity-bounded FIFO queue abstraction (the
`MetaQueue` of the container crate, whose source is not included) used for the
two free-lists: push by value at the back, pop from the front, fixed
capacity. -/
structure MetaQueue (α : Type) where
  elements : List α
  capacity : Nat
deriving DecidableEq

namespace MetaQueue

/-- Number of queued elements (`MetaQueue::len`). -/
def len (q : MetaQueue α) : Nat := q.elements.length

/-- Modelled from the spec: push appends at the back when the queue is below
capacity and fails, leaving the queue unchanged, otherwise. -/
def push_impl (q : MetaQueue α) (a : α) : MetaQueue α :=
  if q.elements.length < q.capacity then { q with elements := q.elements ++ [a] } else q

/-- Modelled from the spec: pop removes and returns the front element, or
returns `none` on an empty queue, leaving it unchanged. -/
def pop_impl (q : MetaQueue α) : Option α × MetaQueue α :=
  match q.elements with
  | [] => (none, q)
  | x :: xs => (some x, { q with elements := xs })

end MetaQueue

/-- The slot-map engine `details::MetaSlotMap`: a key-indirection sequence, a
free-key-slot queue, the value-storage sequence, and a free-data-slot queue. -/
structure MetaSlotMap (α : Type) where
  idx_to_data : MetaVec Nat
  idx_to_data_next_free_index : MetaQueue Nat
  data : MetaVec (Option α)
  data_next_free_index : MetaQueue Nat
deriving DecidableEq

namespace MetaSlotMap

variable {α : Type}

/-- `capacity_impl`: the capacity of the key-indirection vector. -/
def capacity_impl (m : MetaSlotMap α) : Nat := m.idx_to_data.capacity

/-- `len_impl`: capacity minus the length of the free-key-slot queue. -/
def len_impl (m : MetaSlotMap α) : Nat :=
  m.capacity_impl - m.idx_to_data_next_free_index.len

/-- `is_empty_impl`. -/
def is_empty_impl (m : MetaSlotMap α) : Bool := m.len_impl == 0

/-- `is_full_impl`. -/
def is_full_impl (m : MetaSlotMap α) : Bool := m.len_impl == m.capacity_impl

/-- `contains_impl`: reads the indirection entry of `key` (an unchecked indexed
access) and compares it against the sentinel.  The outer `Option` is `none`
exactly when the access is out of bounds. -/
def contains_impl (m : MetaSlotMap α) (key : Nat) : Option Bool :=
  (m.idx_to_data.get key).map (fun e => e != INVALID_KEY)

/-- `get_impl`: unchecked read of the indirection entry, then a lookup of the
referenced value slot whose `expect` demands a present value.  The outer
`Option` is `none` exactly when the indexed access or the `expect` is a fatal
error; the inner `Option` is the Rust return value. -/
def get_impl (m : MetaSlotMap α) (key : Nat) : Option (Option α) :=
  match m.idx_to_data.get key with
  | none => none
  | some n =>
    if n = INVALID_KEY then some none
    else
      match m.data.get n with
      | none => none
      | some none => none
      | some (some v) => some (some v)

/-- `get_mut_impl`: identical shape to `get_impl` in the model (mutable and
shared references coincide once state is passed explicitly). -/
def get_mut_impl (m : MetaSlotMap α) (key : Nat) : Option (Option α) :=
  match m.idx_to_data.get key with
  | none => none
  | some n =>
    if n = INVALID_KEY then some none
    else
      match m.data.get n with
      | none => none
      | some none => none
      | some (some v) => some (some v)

/-- `insert_at_impl`: rejects keys strictly greater than the capacity, then
reads the indirection entry (a fatal out-of-bounds access when
`key = capacity`); an occupied entry is overwritten in place, otherwise a
data slot is popped from the free-data-slot queue (`expect`: a fatal error on
an empty queue) and bound to the key.  The free-key-slot queue is not
touched.  Result `some (b, m')` is the Rust return value and post-state. -/
def insert_at_impl (m : MetaSlotMap α) (key : Nat) (value : α) :
    Option (Bool × MetaSlotMap α) :=
  if m.capacity_impl < key then some (false, m)
  else
    match m.idx_to_data.get key with
    | none => none
    | some data_idx =>
      if data_idx ≠ INVALID_KEY then
        match m.data.set data_idx (some value) with
        | none => none
        | some d => some (true, { m with data := d })
      else
        match m.data_next_free_index.pop_impl with
        | (none, _) => none
        | (some n, q) =>
          match m.idx_to_data.set key n with
          | none => none
          | some idx =>
            match m.data.set n (some value) with
            | none => none
            | some d =>
              some (true, { m with idx_to_data := idx, data := d,
                                   data_next_free_index := q })

/-- `insert_impl`: pops the free-key-slot queue; an empty queue signals a full
container (`none` key, no side effect), otherwise the popped index becomes the
key and the value is bound via `insert_at_impl` (whose boolean result the
source discards). -/
def insert_impl (m : MetaSlotMap α) (value : α) :
    Option (Option Nat × MetaSlotMap α) :=
  match m.idx_to_data_next_free_index.pop_impl with
  | (none, _) => some (none, m)
  | (some key, q) =>
    match insert_at_impl { m with idx_to_data_next_free_index := q } key value with
    | none => none
    | some (_, m2) => some (some key, m2)

/-- `remove_impl`: rejects keys strictly greater than the indirection length,
then reads the indirection entry (a fatal out-of-bounds access when
`key = len`); an occupied entry has its value slot cleared, the data index and
the key index pushed onto the respective free queues, and the entry reset to
the sentinel. -/
def remove_impl (m : MetaSlotMap α) (key : Nat) : Option (Bool × MetaSlotMap α) :=
  if m.idx_to_data.len < key then some (false, m)
  else
    match m.idx_to_data.get key with
    | none => none
    | some data_idx =>
      if data_idx ≠ INVALID_KEY then
        match m.data.set data_idx none with
        | none => none
        | some d =>
          match m.idx_to_data.set key INVALID_KEY with
          | none => none
          | some idx =>
            some (true,
              { idx_to_data := idx,
                idx_to_data_next_free_index :=
                  m.idx_to_data_next_free_index.push_impl key,
                data := d,
                data_next_free_index :=
                  m.data_next_free_index.push_impl data_idx })
      else some (false, m)

/-- The body of `initialize_data_structures`: for every `n` below the capacity,
push the sentinel onto the indirection sequence, an empty slot onto the value
sequence, and `n` onto both free queues. -/
def init_data_structures (m : MetaSlotMap α) : MetaSlotMap α :=
  (List.range m.capacity_impl).foldl
    (fun acc n =>
      { idx_to_data := acc.idx_to_data.push_impl INVALID_KEY,
        idx_to_data_next_free_index := acc.idx_to_data_next_free_index.push_impl n,
        data := acc.data.push_impl none,
        data_next_free_index := acc.data_next_free_index.push_impl n }) m

/-- `SlotMap::new(capacity)`: four empty backing structures of the given
capacity, then the pre-fill of `initialize_data_structures`.  A successful
`RelocatableSlotMap::init` ends in the same state: after the four allocations
succeed it runs the same pre-fill on the same empty structures, so both
construction paths of the source are modelled by this one function. -/
def newSlotMap (c : Nat) : MetaSlotMap α :=
  init_data_structures
    { idx_to_data := { elements := [], capacity := c },
      idx_to_data_next_free_index := { elements := [], capacity := c },
      data := { elements := [], capacity := c },
      data_next_free_index := { elements := [], capacity := c } }

/-- One pass of `MetaSlotMap::next`, searching for the first occupied
indirection entry at or after `n`; the fuel argument counts the remaining loop
iterations (`len - n` at the call site).  The outer `Option` is `none` exactly
when an indexed access or the `expect` inside the loop is a fatal error;
`some none` means the scan reached the end. -/
def nextFrom (m : MetaSlotMap α) : Nat → Nat → Option (Option (Nat × α))
  | 0, _ => some none
  | fuel + 1, n =>
    match m.idx_to_data.get n with
    | none => none
    | some data_idx =>
      if data_idx ≠ INVALID_KEY then
        match m.data.get data_idx with
        | none => none
        | some none => none
        | some (some v) => some (some (n, v))
      else nextFrom m fuel (n + 1)

/-- `MetaSlotMap::next`: scan the indirection sequence from `start` up to its
length. -/
def next (m : MetaSlotMap α) (start : Nat) : Option (Option (Nat × α)) :=
  nextFrom m (m.idx_to_data.len - start) start

/-- The loop of `Iter::next` run to exhaustion: starting from key `key`, each
yielded pair `(k, v)` restarts the scan at `k + 1`.  The fuel bounds the
number of yields; it never runs out when called with the indirection length
(each yield strictly advances the key).  `none` models a fatal error inside
`next`. -/
def iterFrom (m : MetaSlotMap α) : Nat → Nat → Option (List (Nat × α))
  | 0, key =>
    match next m key with
    | some none => some []
    | _ => none
  | fuel + 1, key =>
    match next m key with
    | none => none
    | some none => some []
    | some (some (k, v)) => (iterFrom m fuel (k + 1)).map (fun l => (k, v) :: l)

/-- `iter_impl` run to exhaustion: the iterator starts at key `0` on each
call and the container is never mutated, so the whole traversal is this pure
list. -/
def iterList (m : MetaSlotMap α) : Option (List (Nat × α)) :=
  iterFrom m m.idx_to_data.len 0

/-- States reachable from a freshly constructed slot map by successful
(non-fatal) calls of the mutating operations; `contains`, `get`, `get_mut` and
`iter` take the receiver by shared reference in the source and cannot change
the state, so they add no transitions.  The capacity bound reflects that a
Rust capacity is a `usize`. -/
inductive Reachable : MetaSlotMap α → Prop
  | init (c : Nat) (hc : c ≤ INVALID_KEY) : Reachable (newSlotMap c)
  | insert_step {m : MetaSlotMap α} {r} (v : α) : Reachable m →
      insert_impl m v = some r → Reachable r.2
  | insert_at_step {m : MetaSlotMap α} {r} (key : Nat) (v : α) : Reachable m →
      insert_at_impl m key v = some r → Reachable r.2
  | remove_step {m : MetaSlotMap α} {r} (key : Nat) : Reachable m →
      remove_impl m key = some r → Reachable r.2

/-- The state invariant maintained by every reachable slot map: capacities
agree, both sequences are filled to capacity, the free-data-slot queue lists
exactly the empty value slots without duplicates, every occupied indirection
entry references a present value slot, distinct occupied entries reference
distinct slots, and every present value slot is referenced.  The free-key-slot
queue is only capacity-bounded with in-range elements: `insert_at` binds free
keys without popping them from that queue, so nothing stronger holds of it. -/
structure Inv (m : MetaSlotMap α) : Prop where
  cap_data : m.data.capacity = m.capacity_impl
  cap_qk : m.idx_to_data_next_free_index.capacity = m.capacity_impl
  cap_qd : m.data_next_free_index.capacity = m.capacity_impl
  len_idx : m.idx_to_data.len = m.capacity_impl
  len_data : m.data.len = m.capacity_impl
  cap_le : m.capacity_impl ≤ INVALID_KEY
  qk_len : m.idx_to_data_next_free_index.len ≤ m.capacity_impl
  qk_mem : ∀ x ∈ m.idx_to_data_next_free_index.elements, x < m.capacity_impl
  qd_mem : ∀ x ∈ m.data_next_free_index.elements,
    x < m.capacity_impl ∧ m.data.elements[x]? = some none
  qd_nodup : m.data_next_free_index.elements.Nodup
  empty_mem : ∀ j : Nat, m.data.elements[j]? = some none →
    j ∈ m.data_next_free_index.elements
  occ : ∀ i e : Nat, m.idx_to_data.elements[i]? = some e → e ≠ INVALID_KEY →
    ∃ v, m.data.elements[e]? = some (some v)
  inj : ∀ i j e : Nat, m.idx_to_data.elements[i]? = some e →
    m.idx_to_data.elements[j]? = some e → e ≠ INVALID_KEY → i = j
  ref : ∀ (j : Nat) (v : α), m.data.elements[j]? = some (some v) →
    ∃ i : Nat, m.idx_to_data.elements[i]? = some j

/-- The fold of `init_data_structures`, run for the first `k` indices. -/
lemma init_fold (c : Nat) : ∀ k, k ≤ c →
    ((List.range k).foldl
      (fun (acc : MetaSlotMap α) n =>
        { idx_to_data := acc.idx_to_data.push_impl INVALID_KEY,
          idx_to_data_next_free_index := acc.idx_to_data_next_free_index.push_impl n,
          data := acc.data.push_impl none,
          data_next_free_index := acc.data_next_free_index.push_impl n })
      { idx_to_data := { elements := [], capacity := c },
        idx_to_data_next_free_index := { elements := [], capacity := c },
        data := { elements := [], capacity := c },
        data_next_free_index := { elements := [], capacity := c } }) =
    { idx_to_data := { elements := List.replicate k INVALID_KEY, capacity := c },
      idx_to_data_next_free_index := { elements := List.range k, capacity := c },
      data := { elements := List.replicate k (none : Option α), capacity := c },
      data_next_free_index := { elements := List.range k, capacity := c } } := by
  intro k
  induction k with
  | zero => intro _; rfl
  | succ k ih =>
    intro hk
    have hklt : k < c := Nat.lt_of_succ_le hk
    rw [List.range_succ, List.foldl_append, ih (Nat.le_of_succ_le hk)]
    simp [MetaVec.push_impl, MetaQueue.push_impl, hklt,
      List.replicate_succ' , ← List.range_succ]

/-- The state of a freshly constructed slot map of capacity `c`: every
indirection entry is the sentinel, both free queues hold `0, 1, ..., c - 1` in
that order, and every value slot is empty. -/
lemma newSlotMap_eq (c : Nat) :
    (newSlotMap c : MetaSlotMap α) =
    { idx_to_data := { elements := List.replicate c INVALID_KEY, capacity := c },
      idx_to_data_next_free_index := { elements := List.range c, capacity := c },
      data := { elements := List.replicate c (none : Option α), capacity := c },
      data_next_free_index := { elements := List.range c, capacity := c } } := by
  unfold newSlotMap init_data_structures
  exact init_fold c c (Nat.le_refl c)

/-- The invariant holds of a freshly constructed slot map. -/
lemma inv_new (c : Nat) (hc : c ≤ INVALID_KEY) : Inv (newSlotMap c : MetaSlotMap α) := by
  rw [newSlotMap_eq]
  refine ⟨rfl, rfl, rfl, ?_, ?_, hc, ?_, ?_, ?_, ?_, ?_, ?_, ?_, ?_⟩
  · simp [MetaVec.len, capacity_impl]
  · simp [MetaVec.len, capacity_impl]
  · simp [MetaQueue.len, capacity_impl]
  · intro x hx
    simpa [capacity_impl] using List.mem_range.mp hx
  · intro x hx
    have hxc : x < c := List.mem_range.mp hx
    simp [capacity_impl, hxc, List.getElem?_replicate]
  · exact List.nodup_range c
  · intro j hj
    rw [List.getElem?_replicate] at hj
    by_cases h : j < c
    · exact List.mem_range.mpr h
    · simp [h] at hj
  · intro i e he hne
    rw [List.getElem?_replicate] at he
    by_cases h : i < c
    · simp [h] at he
      exact absurd he.symm hne
    · simp [h] at he
  · intro i j e hi hj hne
    rw [List.getElem?_replicate] at hi
    by_cases h : i < c
    · simp [h] at hi
      exact absurd hi.symm hne
    · simp [h] at hi
  · intro j v hj
    rw [List.getElem?_replicate] at hj
    by_cases h : j < c
    · simp [h] at hj
    · simp [h] at hj

/-- Unfolding of a successful `MetaVec.set`. -/
lemma vec_set_some {β : Type} {v : MetaVec β} {i : Nat} {a : β} {w : MetaVec β}
    (h : v.set i a = some w) :
    i < v.elements.length ∧ w.elements = v.elements.set i a ∧ w.capacity = v.capacity := by
  unfold MetaVec.set at h
  split at h
  · obtain rfl := Option.some.inj h
    exact ⟨by assumption, rfl, rfl⟩
  · exact absurd h (by simp)

/-- Unfolding of a successful `MetaQueue.pop_impl`. -/
lemma queue_pop_some {β : Type} {q₀ q : MetaQueue β} {a : β}
    (h : q₀.pop_impl = (some a, q)) :
    q₀.elements = a :: q.elements ∧ q.capacity = q₀.capacity := by
  unfold MetaQueue.pop_impl at h
  cases hq : q₀.elements with
  | nil =>
    rw [hq] at h
    have h' : ((none : Option β), q₀) = (some a, q) := h
    simp at h'
  | cons x xs =>
    rw [hq] at h
    have h' : ((some x : Option β), ({ elements := xs, capacity := q₀.capacity } : MetaQueue β)) = (some a, q) := h
    have h1 : some x = some a := congrArg Prod.fst h'
    have h2 : ({ elements := xs, capacity := q₀.capacity } : MetaQueue β) = q := congrArg Prod.snd h'
    obtain rfl := Option.some.inj h1
    subst h2
    exact ⟨rfl, rfl⟩

/-- Unfolding of a failing `MetaQueue.pop_impl`. -/
lemma queue_pop_none {β : Type} {q₀ q : MetaQueue β}
    (h : q₀.pop_impl = (none, q)) : q₀.elements = [] ∧ q = q₀ := by
  unfold MetaQueue.pop_impl at h
  cases hq : q₀.elements with
  | nil =>
    rw [hq] at h
    have h' : ((none : Option β), q₀) = (none, q) := h
    have h2 : q₀ = q := congrArg Prod.snd h'
    exact ⟨rfl, h2.symm⟩
  | cons x xs =>
    rw [hq] at h
    have h' : ((some x : Option β), ({ elements := xs, capacity := q₀.capacity } : MetaQueue β)) = (none, q) := h
    have h1 : (some x : Option β) = none := congrArg Prod.fst h'
    simp at h1

/-- A push below capacity appends. -/
lemma queue_push_elements_of_lt {β : Type} {q : MetaQueue β}
    (h : q.elements.length < q.capacity) (a : β) :
    (q.push_impl a).elements = q.elements ++ [a] := by
  unfold MetaQueue.push_impl
  rw [if_pos h]

/-- Pushing preserves the capacity. -/
lemma queue_push_cap {β : Type} (q : MetaQueue β) (a : β) :
    (q.push_impl a).capacity = q.capacity := by
  unfold MetaQueue.push_impl
  split <;> rfl

/-- Members after a push were members before or are the pushed value. -/
lemma queue_push_mem {β : Type} {q : MetaQueue β} {x a : β}
    (h : x ∈ (q.push_impl a).elements) : x ∈ q.elements ∨ x = a := by
  unfold MetaQueue.push_impl at h
  split at h
  · rcases List.mem_append.mp h with h' | h'
    · exact Or.inl h'
    · exact Or.inr (List.mem_singleton.mp h')
  · exact Or.inl h

/-- A push never exceeds the capacity. -/
lemma queue_push_len_le {β : Type} {q : MetaQueue β}
    (h : q.elements.length ≤ q.capacity) (a : β) :
    (q.push_impl a).elements.length ≤ q.capacity := by
  unfold MetaQueue.push_impl
  split
  · simpa using Nat.succ_le_of_lt (by assumption)
  · exact h

/-- A duplicate-free list of naturals below `c` has at most `c` elements. -/
lemma nodup_lt_length_le {l : List Nat} {c : Nat}
    (hnd : l.Nodup) (hmem : ∀ x ∈ l, x < c) : l.length ≤ c := by
  have hsub : l ⊆ List.range c := fun x hx => List.mem_range.mpr (hmem x hx)
  simpa using (List.subperm_of_subset hnd hsub).length_le

/-- `insert_at_impl` preserves the state invariant. -/
lemma inv_insert_at {m : MetaSlotMap α} {key : Nat} {v : α} {r : Bool × MetaSlotMap α}
    (h : Inv m) (hres : insert_at_impl m key v = some r) : Inv r.2 := by
  unfold insert_at_impl at hres
  split at hres
  · obtain rfl := Option.some.inj hres
    exact h
  · split at hres
    · exact absurd hres (by simp)
    case _ data_idx heq =>
      simp only [MetaVec.get] at heq
      have hkey : key < m.idx_to_data.elements.length :=
        (List.getElem?_eq_some_iff.mp heq).1
      split at hres
      case isTrue hd =>
        -- overwrite branch: the entry already references a value slot
        split at hres
        · exact absurd hres (by simp)
        case _ d hset =>
          obtain ⟨hlt, hdel, hdcap⟩ := vec_set_some hset
          obtain ⟨w, hw⟩ := h.occ key data_idx heq hd
          obtain rfl := Option.some.inj hres
          refine ⟨?_, h.cap_qk, h.cap_qd, h.len_idx, ?_, h.cap_le, h.qk_len,
            h.qk_mem, ?_, h.qd_nodup, ?_, ?_, h.inj, ?_⟩
          · rw [hdcap]; exact h.cap_data
          · show d.elements.length = _
            rw [hdel, List.length_set]; exact h.len_data
          · intro x hx
            obtain ⟨hxc, hxe⟩ := h.qd_mem x hx
            have hxne : x ≠ data_idx := by
              intro hcon; rw [hcon, hw] at hxe; simp at hxe
            refine ⟨hxc, ?_⟩
            rw [hdel, List.getElem?_set_ne (fun hcon => hxne hcon.symm), hxe]
          · intro j hj
            rw [hdel] at hj
            by_cases hjd : data_idx = j
            · subst hjd
              rw [List.getElem?_set_self', List.getElem?_eq_getElem hlt] at hj
              simp at hj
            · rw [List.getElem?_set_ne hjd] at hj
              exact h.empty_mem j hj
          · intro i e hi hne
            obtain ⟨u, hu⟩ := h.occ i e hi hne
            by_cases hed : e = data_idx
            · subst hed
              refine ⟨v, ?_⟩
              rw [hdel, List.getElem?_set_self', List.getElem?_eq_getElem hlt]
              rfl
            · refine ⟨u, ?_⟩
              rw [hdel, List.getElem?_set_ne (fun hcon => hed hcon.symm)]
              exact hu
          · intro j u hj
            rw [hdel] at hj
            by_cases hjd : data_idx = j
            · subst hjd
              exact ⟨key, heq⟩
            · rw [List.getElem?_set_ne hjd] at hj
              exact h.ref j u hj
      case isFalse hd =>
        -- free branch: pop a data slot from the free-data-slot queue
        have hdinv : data_idx = INVALID_KEY := Decidable.not_not.mp hd
        subst hdinv
        split at hres
        · exact absurd hres (by simp)
        case _ n q hpop =>
          obtain ⟨hqel, hqcap⟩ := queue_pop_some hpop
          have hn : n ∈ m.data_next_free_index.elements := by rw [hqel]; simp
          obtain ⟨hnc, hnel⟩ := h.qd_mem n hn
          split at hres
          · exact absurd hres (by simp)
          case _ idx hidx =>
            obtain ⟨hklt, hiel, hicap⟩ := vec_set_some hidx
            split at hres
            · exact absurd hres (by simp)
            case _ d hset =>
              obtain ⟨hnlt, hdel, hdcap⟩ := vec_set_some hset
              obtain rfl := Option.some.inj hres
              have hcap : idx.capacity = m.capacity_impl := hicap
              have hnd : (n :: q.elements).Nodup := by
                rw [← hqel]; exact h.qd_nodup
              have hnotq : n ∉ q.elements := (List.nodup_cons.mp hnd).1
              have hkc : key < m.capacity_impl := by
                rw [← h.len_idx]; exact hkey
              refine ⟨?_, ?_, ?_, ?_, ?_, ?_, ?_, ?_, ?_, ?_, ?_, ?_, ?_, ?_⟩
              · show d.capacity = idx.capacity
                rw [hdcap, hicap]; exact h.cap_data
              · show _ = idx.capacity
                rw [hicap]; exact h.cap_qk
              · show q.capacity = idx.capacity
                rw [hqcap, hicap]; exact h.cap_qd
              · show idx.elements.length = idx.capacity
                rw [hiel, List.length_set, hicap]; exact h.len_idx
              · show d.elements.length = idx.capacity
                rw [hdel, List.length_set, hicap]; exact h.len_data
              · show idx.capacity ≤ INVALID_KEY
                rw [hicap]; exact h.cap_le
              · show _ ≤ idx.capacity
                rw [hicap]; exact h.qk_len
              · intro x hx
                show x < idx.capacity
                rw [hicap]
                exact h.qk_mem x hx
              · intro x hx
                have hxq : x ∈ m.data_next_free_index.elements := by
                  rw [hqel]; exact List.mem_cons_of_mem n hx
                obtain ⟨hxc, hxe⟩ := h.qd_mem x hxq
                have hxn : x ≠ n := fun hcon => hnotq (hcon ▸ hx)
                refine ⟨lt_of_lt_of_eq hxc hcap.symm, ?_⟩
                show d.elements[x]? = some none
                rw [hdel, List.getElem?_set_ne (fun hcon => hxn hcon.symm)]
                exact hxe
              · exact (List.nodup_cons.mp hnd).2
              · intro j hj
                replace hj : d.elements[j]? = some none := hj
                rw [hdel] at hj
                by_cases hjn : n = j
                · subst hjn
                  rw [List.getElem?_set_self', List.getElem?_eq_getElem hnlt] at hj
                  simp at hj
                · rw [List.getElem?_set_ne hjn] at hj
                  have := h.empty_mem j hj
                  rw [hqel] at this
                  rcases List.mem_cons.mp this with hcon | hok
                  · exact absurd hcon.symm hjn
                  · exact hok
              · intro i e hi hne
                replace hi : idx.elements[i]? = some e := hi
                rw [hiel] at hi
                by_cases hik : key = i
                · subst hik
                  rw [List.getElem?_set_self', List.getElem?_eq_getElem hkey] at hi
                  obtain rfl : n = e := by simpa using hi
                  refine ⟨v, ?_⟩
                  show d.elements[n]? = some (some v)
                  rw [hdel, List.getElem?_set_self', List.getElem?_eq_getElem hnlt]
                  rfl
                · rw [List.getElem?_set_ne hik] at hi
                  obtain ⟨u, hu⟩ := h.occ i e hi hne
                  have hen : e ≠ n := by
                    intro hcon; rw [hcon, hnel] at hu; simp at hu
                  refine ⟨u, ?_⟩
                  show d.elements[e]? = some (some u)
                  rw [hdel, List.getElem?_set_ne (fun hcon => hen hcon.symm)]
                  exact hu
              · intro i j e hi hj hne
                replace hi : idx.elements[i]? = some e := hi
                replace hj : idx.elements[j]? = some e := hj
                rw [hiel] at hi hj
                by_cases hik : key = i <;> by_cases hjk : key = j
                · rw [← hik, hjk]
                · exfalso
                  subst hik
                  rw [List.getElem?_set_self', List.getElem?_eq_getElem hkey] at hi
                  obtain rfl : n = e := by simpa using hi
                  rw [List.getElem?_set_ne hjk] at hj
                  obtain ⟨u, hu⟩ := h.occ j n hj hne
                  rw [hnel] at hu; simp at hu
                · exfalso
                  subst hjk
                  rw [List.getElem?_set_self', List.getElem?_eq_getElem hkey] at hj
                  obtain rfl : n = e := by simpa using hj
                  rw [List.getElem?_set_ne hik] at hi
                  obtain ⟨u, hu⟩ := h.occ i n hi hne
                  rw [hnel] at hu; simp at hu
                · rw [List.getElem?_set_ne hik] at hi
                  rw [List.getElem?_set_ne hjk] at hj
                  exact h.inj i j e hi hj hne
              · intro j u hj
                replace hj : d.elements[j]? = some (some u) := hj
                rw [hdel] at hj
                by_cases hjn : n = j
                · subst hjn
                  refine ⟨key, ?_⟩
                  show idx.elements[key]? = some n
                  rw [hiel, List.getElem?_set_self', List.getElem?_eq_getElem hkey]
                  rfl
                · rw [List.getElem?_set_ne hjn] at hj
                  have hjc : j < m.capacity_impl := by
                    rw [← h.len_data]
                    exact (List.getElem?_eq_some_iff.mp hj).1
                  obtain ⟨i, hi⟩ := h.ref j u hj
                  have hik : i ≠ key := by
                    intro hcon
                    rw [hcon, heq] at hi
                    obtain rfl : INVALID_KEY = j := by simpa using hi
                    exact absurd (Nat.lt_of_lt_of_le hjc h.cap_le) (lt_irrefl _)
                  refine ⟨i, ?_⟩
                  show idx.elements[i]? = some j
                  rw [hiel, List.getElem?_set_ne (fun hcon => hik hcon.symm)]
                  exact hi

/-- `remove_impl` preserves the state invariant. -/
lemma inv_remove {m : MetaSlotMap α} {key : Nat} {r : Bool × MetaSlotMap α}
    (h : Inv m) (hres : remove_impl m key = some r) : Inv r.2 := by
  unfold remove_impl at hres
  split at hres
  · obtain rfl := Option.some.inj hres
    exact h
  · split at hres
    · exact absurd hres (by simp)
    case _ data_idx heq =>
      simp only [MetaVec.get] at heq
      have hkey : key < m.idx_to_data.elements.length :=
        (List.getElem?_eq_some_iff.mp heq).1
      split at hres
      case isFalse hd =>
        obtain rfl := Option.some.inj hres
        exact h
      case isTrue hd =>
        split at hres
        · exact absurd hres (by simp)
        case _ d hset =>
          split at hres
          · exact absurd hres (by simp)
          case _ idx hidx =>
            obtain ⟨hdlt, hdel, hdcap⟩ := vec_set_some hset
            obtain ⟨hklt, hiel, hicap⟩ := vec_set_some hidx
            obtain ⟨w, hw⟩ := h.occ key data_idx heq hd
            obtain rfl := Option.some.inj hres
            have hcap : idx.capacity = m.capacity_impl := hicap
            have hdc : data_idx < m.capacity_impl := by
              rw [← h.len_data]
              exact (List.getElem?_eq_some_iff.mp hw).1
            have hkc : key < m.capacity_impl := by
              rw [← h.len_idx]; exact hkey
            have hdnotq : data_idx ∉ m.data_next_free_index.elements := by
              intro hmem
              obtain ⟨_, hx⟩ := h.qd_mem data_idx hmem
              rw [hw] at hx; simp at hx
            have hqdlt : m.data_next_free_index.elements.length <
                m.data_next_free_index.capacity := by
              have hnd : (data_idx :: m.data_next_free_index.elements).Nodup :=
                List.nodup_cons.mpr ⟨hdnotq, h.qd_nodup⟩
              have hmem : ∀ x ∈ data_idx :: m.data_next_free_index.elements,
                  x < m.capacity_impl := by
                intro x hx
                rcases List.mem_cons.mp hx with rfl | hx
                · exact hdc
                · exact (h.qd_mem x hx).1
              have hlen := nodup_lt_length_le hnd hmem
              rw [h.cap_qd]
              exact Nat.lt_of_succ_le (by simpa using hlen)
            have hqdel : (m.data_next_free_index.push_impl data_idx).elements =
                m.data_next_free_index.elements ++ [data_idx] :=
              queue_push_elements_of_lt hqdlt data_idx
            refine ⟨?_, ?_, ?_, ?_, ?_, ?_, ?_, ?_, ?_, ?_, ?_, ?_, ?_, ?_⟩
            · show d.capacity = idx.capacity
              rw [hdcap, hicap]; exact h.cap_data
            · show (MetaQueue.push_impl _ key).capacity = idx.capacity
              rw [queue_push_cap, hicap]; exact h.cap_qk
            · show (MetaQueue.push_impl _ data_idx).capacity = idx.capacity
              rw [queue_push_cap, hicap]; exact h.cap_qd
            · show idx.elements.length = idx.capacity
              rw [hiel, List.length_set, hicap]; exact h.len_idx
            · show d.elements.length = idx.capacity
              rw [hdel, List.length_set, hicap]; exact h.len_data
            · show idx.capacity ≤ INVALID_KEY
              rw [hicap]; exact h.cap_le
            · show (MetaQueue.push_impl _ key).len ≤ idx.capacity
              have hle : m.idx_to_data_next_free_index.elements.length ≤
                  m.idx_to_data_next_free_index.capacity := by
                rw [h.cap_qk]; exact h.qk_len
              exact le_of_le_of_eq (queue_push_len_le hle key)
                (h.cap_qk.trans hcap.symm)
            · intro x hx
              rcases queue_push_mem hx with hx | rfl
              · exact lt_of_lt_of_eq (h.qk_mem x hx) hcap.symm
              · exact lt_of_lt_of_eq hkc hcap.symm
            · intro x hx
              rw [hqdel] at hx
              rcases List.mem_append.mp hx with hx | hx
              · obtain ⟨hxc, hxe⟩ := h.qd_mem x hx
                have hxne : x ≠ data_idx := fun hcon => hdnotq (hcon ▸ hx)
                refine ⟨lt_of_lt_of_eq hxc hcap.symm, ?_⟩
                show d.elements[x]? = some none
                rw [hdel, List.getElem?_set_ne (fun hcon => hxne hcon.symm)]
                exact hxe
              · obtain rfl := List.mem_singleton.mp hx
                refine ⟨lt_of_lt_of_eq hdc hcap.symm, ?_⟩
                show d.elements[x]? = some none
                rw [hdel, List.getElem?_set_self', List.getElem?_eq_getElem hdlt]
                rfl
            · show (MetaQueue.push_impl _ data_idx).elements.Nodup
              rw [hqdel]
              refine List.Nodup.append h.qd_nodup (List.nodup_singleton _) ?_
              intro x hx hx2
              obtain rfl := List.mem_singleton.mp hx2
              exact hdnotq hx
            · intro j hj
              replace hj : d.elements[j]? = some none := hj
              rw [hqdel]
              by_cases hjd : data_idx = j
              · subst hjd
                exact List.mem_append.mpr (Or.inr (List.mem_singleton.mpr rfl))
              · rw [hdel, List.getElem?_set_ne hjd] at hj
                exact List.mem_append.mpr (Or.inl (h.empty_mem j hj))
            · intro i e hi hne
              replace hi : idx.elements[i]? = some e := hi
              rw [hiel] at hi
              by_cases hik : key = i
              · subst hik
                rw [List.getElem?_set_self', List.getElem?_eq_getElem hkey] at hi
                obtain rfl : INVALID_KEY = e := by simpa using hi
                exact absurd rfl hne
              · rw [List.getElem?_set_ne hik] at hi
                obtain ⟨u, hu⟩ := h.occ i e hi hne
                have hed : e ≠ data_idx := by
                  intro hcon
                  subst hcon
                  exact hik (h.inj key i e heq hi hne)
                refine ⟨u, ?_⟩
                show d.elements[e]? = some (some u)
                rw [hdel, List.getElem?_set_ne (fun hcon => hed hcon.symm)]
                exact hu
            · intro i j e hi hj hne
              replace hi : idx.elements[i]? = some e := hi
              replace hj : idx.elements[j]? = some e := hj
              rw [hiel] at hi hj
              by_cases hik : key = i
              · subst hik
                rw [List.getElem?_set_self', List.getElem?_eq_getElem hkey] at hi
                obtain rfl : INVALID_KEY = e := by simpa using hi
                exact absurd rfl hne
              · by_cases hjk : key = j
                · subst hjk
                  rw [List.getElem?_set_self', List.getElem?_eq_getElem hkey] at hj
                  obtain rfl : INVALID_KEY = e := by simpa using hj
                  exact absurd rfl hne
                · rw [List.getElem?_set_ne hik] at hi
                  rw [List.getElem?_set_ne hjk] at hj
                  exact h.inj i j e hi hj hne
            · intro j u hj
              replace hj : d.elements[j]? = some (some u) := hj
              by_cases hjd : data_idx = j
              · subst hjd
                rw [hdel, List.getElem?_set_self',
                  List.getElem?_eq_getElem hdlt] at hj
                simp at hj
              · rw [hdel, List.getElem?_set_ne hjd] at hj
                obtain ⟨i, hi⟩ := h.ref j u hj
                have hik : i ≠ key := by
                  intro hcon
                  rw [hcon, heq] at hi
                  exact hjd (Option.some.inj hi)
                refine ⟨i, ?_⟩
                show idx.elements[i]? = some j
                rw [hiel, List.getElem?_set_ne (fun hcon => hik hcon.symm)]
                exact hi

/-- Popping the free-key-slot queue preserves the invariant (the popped state
is the receiver on which `insert_impl` runs `insert_at_impl`). -/
lemma inv_qk_pop {m : MetaSlotMap α} {key : Nat} {q : MetaQueue Nat}
    (h : Inv m) (hpop : m.idx_to_data_next_free_index.pop_impl = (some key, q)) :
    Inv { m with idx_to_data_next_free_index := q } := by
  obtain ⟨hqel, hqcap⟩ := queue_pop_some hpop
  refine ⟨h.cap_data, ?_, h.cap_qd, h.len_idx, h.len_data, h.cap_le, ?_, ?_,
    h.qd_mem, h.qd_nodup, h.empty_mem, h.occ, h.inj, h.ref⟩
  · show q.capacity = _
    rw [hqcap]; exact h.cap_qk
  · show q.elements.length ≤ _
    have hle : q.elements.length ≤ m.idx_to_data_next_free_index.elements.length := by
      rw [hqel]; exact Nat.le_succ _
    exact le_trans hle h.qk_len
  · intro x hx
    exact h.qk_mem x (by rw [hqel]; exact List.mem_cons_of_mem _ hx)

/-- `insert_impl` preserves the state invariant. -/
lemma inv_insert {m : MetaSlotMap α} {v : α} {r : Option Nat × MetaSlotMap α}
    (h : Inv m) (hres : insert_impl m v = some r) : Inv r.2 := by
  unfold insert_impl at hres
  split at hres
  · obtain rfl := Option.some.inj hres
    exact h
  case _ key q hpop =>
    have h0 := inv_qk_pop h hpop
    split at hres
    · exact absurd hres (by simp)
    case _ b m2 hia =>
      obtain rfl := Option.some.inj hres
      exact inv_insert_at h0 hia

/-- Every reachable slot map satisfies the state invariant. -/
lemma reach_inv {m : MetaSlotMap α} (h : Reachable m) : Inv m := by
  induction h with
  | init c hc => exact inv_new c hc
  | insert_step v _ heq ih => exact inv_insert ih heq
  | insert_at_step key v _ heq ih => exact inv_insert_at ih heq
  | remove_step key _ heq ih => exact inv_remove ih heq

/-- Under the invariant, an unoccupied key implies the free-data-slot queue is
nonempty: the `expect` on the pop inside `insert_at_impl` can never fire.
The proof counts: if no data slot were free, every slot would be present and,
each being referenced by a distinct key, all keys would be occupied. -/
lemma data_queue_ne_nil {m : MetaSlotMap α} (h : Inv m) {key : Nat}
    (hk : m.idx_to_data.elements[key]? = some INVALID_KEY) :
    m.data_next_free_index.elements ≠ [] := by
  intro hnil
  have hkc : key < m.capacity_impl := by
    rw [← h.len_idx]
    exact (List.getElem?_eq_some_iff.mp hk).1
  have hall : ∀ j : Nat, j < m.capacity_impl →
      ∃ v, m.data.elements[j]? = some (some v) := by
    intro j hj
    have hjlen : j < m.data.elements.length := by
      have := h.len_data
      unfold MetaVec.len at this
      omega
    obtain ⟨d, hd⟩ : ∃ d, m.data.elements[j]? = some d :=
      ⟨_, List.getElem?_eq_getElem hjlen⟩
    cases d with
    | none =>
      have := h.empty_mem j hd
      rw [hnil] at this
      simp at this
    | some v => exact ⟨v, hd⟩
  have hex : ∀ j : Fin m.capacity_impl, ∃ i : Fin m.capacity_impl,
      m.idx_to_data.elements[i.val]? = some j.val := by
    intro j
    obtain ⟨v, hv⟩ := hall j.val j.isLt
    obtain ⟨i, hi⟩ := h.ref j.val v hv
    have hic : i < m.capacity_impl := by
      rw [← h.len_idx]
      exact (List.getElem?_eq_some_iff.mp hi).1
    exact ⟨⟨i, hic⟩, hi⟩
  choose f hf using hex
  have hinj : Function.Injective f := by
    intro a b hab
    have ha := hf a
    have hb := hf b
    rw [hab, hb] at ha
    exact Fin.ext (Option.some.inj ha.symm)
  obtain ⟨j, hj⟩ := Finite.injective_iff_surjective.mp hinj ⟨key, hkc⟩
  have hkj := hf j
  rw [hj] at hkj
  rw [hk] at hkj
  obtain hcon : INVALID_KEY = j.val := Option.some.inj hkj
  exact absurd (Nat.lt_of_lt_of_le j.isLt h.cap_le) (by rw [← hcon]; exact lt_irrefl _)

/-- Specification-side description of the yield at index `n` during iteration:
`some (n, v)` when the indirection entry at `n` is occupied and references a
present value `v`. -/
def pick (m : MetaSlotMap α) (n : Nat) : Option (Nat × α) :=
  (m.idx_to_data.elements[n]?).bind (fun e =>
    if e = INVALID_KEY then none
    else (m.data.elements[e]?).bind (fun d => d.map (fun v => (n, v))))

/-- Unfolding of a successful `pick`. -/
lemma pick_eq_some {m : MetaSlotMap α} {n : Nat} {p : Nat × α} :
    pick m n = some p ↔
      ∃ e v, m.idx_to_data.elements[n]? = some e ∧ e ≠ INVALID_KEY ∧
        m.data.elements[e]? = some (some v) ∧ p = (n, v) := by
  unfold pick
  constructor
  · intro h
    rw [Option.bind_eq_some] at h
    obtain ⟨e, he, h⟩ := h
    split at h
    · simp at h
    · rw [Option.bind_eq_some] at h
      obtain ⟨d, hd, h⟩ := h
      cases d with
      | none => simp at h
      | some v =>
        refine ⟨e, v, he, by assumption, hd, ?_⟩
        simpa using h.symm
  · rintro ⟨e, v, he, hne, hd, rfl⟩
    rw [he]
    simp [hne, hd]

/-- A yielded pair carries the index it was found at. -/
lemma pick_fst {m : MetaSlotMap α} {n : Nat} {p : Nat × α}
    (h : pick m n = some p) : p.1 = n := by
  obtain ⟨e, v, _, _, _, rfl⟩ := pick_eq_some.mp h
  rfl

/-- Under the invariant, an occupied in-range entry is picked with its stored
value. -/
lemma pick_occ {m : MetaSlotMap α} (h : Inv m) {n e : Nat}
    (he : m.idx_to_data.elements[n]? = some e) (hne : e ≠ INVALID_KEY) :
    ∃ v, pick m n = some (n, v) ∧ m.data.elements[e]? = some (some v) := by
  obtain ⟨v, hv⟩ := h.occ n e he hne
  exact ⟨v, pick_eq_some.mpr ⟨e, v, he, hne, hv, rfl⟩, hv⟩

/-- A sentinel entry is skipped by `pick`. -/
lemma pick_invalid {m : MetaSlotMap α} {n : Nat}
    (he : m.idx_to_data.elements[n]? = some INVALID_KEY) : pick m n = none := by
  unfold pick
  rw [he]
  simp

/-- Past the end of the indirection sequence the scan of `next` stops. -/
lemma next_ge {m : MetaSlotMap α} {key : Nat} (hk : m.idx_to_data.len ≤ key) :
    next m key = some none := by
  unfold next
  rw [Nat.sub_eq_zero_of_le hk]
  rfl

/-- A hit of `nextFrom` at the scan position itself. -/
lemma nextFrom_hit {m : MetaSlotMap α} {key : Nat} {v : α} (fuel : Nat)
    (hp : pick m key = some (key, v)) :
    nextFrom m (fuel + 1) key = some (some (key, v)) := by
  obtain ⟨e, w, he, hne, hd, hpair⟩ := pick_eq_some.mp hp
  obtain rfl : v = w := by simpa using congrArg Prod.snd hpair
  simp only [nextFrom, MetaVec.get]
  rw [he]
  simp [hne, hd]

/-- A sentinel entry lets `nextFrom` advance by one position. -/
lemma nextFrom_skip {m : MetaSlotMap α} {key : Nat} (fuel : Nat)
    (he : m.idx_to_data.elements[key]? = some INVALID_KEY) :
    nextFrom m (fuel + 1) key = nextFrom m fuel (key + 1) := by
  simp only [nextFrom, MetaVec.get]
  rw [he]
  simp

/-- In range, a hit at the scan position determines `next`. -/
lemma next_hit {m : MetaSlotMap α} {key : Nat} {v : α}
    (hk : key < m.idx_to_data.len) (hp : pick m key = some (key, v)) :
    next m key = some (some (key, v)) := by
  unfold next
  have hd : m.idx_to_data.len - key = (m.idx_to_data.len - (key + 1)) + 1 := by omega
  rw [hd]
  exact nextFrom_hit _ hp

/-- In range, a sentinel entry lets `next` advance by one position. -/
lemma next_skip {m : MetaSlotMap α} {key : Nat}
    (hk : key < m.idx_to_data.len)
    (he : m.idx_to_data.elements[key]? = some INVALID_KEY) :
    next m key = next m (key + 1) := by
  unfold next
  have hd : m.idx_to_data.len - key = (m.idx_to_data.len - (key + 1)) + 1 := by omega
  rw [hd]
  exact nextFrom_skip _ he

/-- The iterator loop, run with enough fuel, collects exactly the picks of the
remaining index range. -/
lemma iterFrom_spec {m : MetaSlotMap α} (h : Inv m) :
    ∀ fuel key, m.idx_to_data.len ≤ key + fuel →
      iterFrom m fuel key =
        some ((List.range' key (m.idx_to_data.len - key)).filterMap (pick m)) := by
  intro fuel
  induction fuel with
  | zero =>
    intro key hk
    rw [Nat.add_zero] at hk
    rw [Nat.sub_eq_zero_of_le hk]
    simp only [iterFrom]
    rw [next_ge hk]
    rfl
  | succ fuel ih =>
    intro key hk
    have main : ∀ d key, m.idx_to_data.len - key ≤ d →
        m.idx_to_data.len ≤ key + (fuel + 1) →
        iterFrom m (fuel + 1) key =
          some ((List.range' key (m.idx_to_data.len - key)).filterMap (pick m)) := by
      intro d
      induction d with
      | zero =>
        intro key hd hk
        have hklen : m.idx_to_data.len ≤ key :=
          Nat.le_of_sub_eq_zero (Nat.le_zero.mp hd)
        rw [Nat.sub_eq_zero_of_le hklen]
        simp only [iterFrom]
        rw [next_ge hklen]
        rfl
      | succ d ihd =>
        intro key hd hk
        by_cases hklen : m.idx_to_data.len ≤ key
        · rw [Nat.sub_eq_zero_of_le hklen]
          simp only [iterFrom]
          rw [next_ge hklen]
          rfl
        · push_neg at hklen
          have hklen' : key < m.idx_to_data.elements.length := hklen
          obtain ⟨e, he⟩ : ∃ e, m.idx_to_data.elements[key]? = some e :=
            ⟨_, List.getElem?_eq_getElem hklen'⟩
          have hr : List.range' key (m.idx_to_data.len - key) =
              key :: List.range' (key + 1) (m.idx_to_data.len - (key + 1)) := by
            have hstep : m.idx_to_data.len - key =
                (m.idx_to_data.len - (key + 1)) + 1 := by omega
            rw [hstep, List.range'_succ]
          by_cases hinv : e = INVALID_KEY
          · subst hinv
            have hpick : pick m key = none := pick_invalid he
            have hstep : iterFrom m (fuel + 1) key = iterFrom m (fuel + 1) (key + 1) := by
              simp only [iterFrom]
              rw [next_skip hklen he]
            rw [hstep, ihd (key + 1) (by omega) (by omega), hr, List.filterMap_cons]
            simp [hpick]
          · obtain ⟨v, hp, _⟩ := pick_occ h he hinv
            simp only [iterFrom]
            rw [next_hit hklen hp]
            show Option.map (fun l => (key, v) :: l) (iterFrom m fuel (key + 1)) = _
            rw [ih (key + 1) (by omega), hr, List.filterMap_cons]
            simp [hp]
    exact main (m.idx_to_data.len - key) key (Nat.le_refl _) hk

/-- The full traversal of `iter` collects exactly the picks of `0, ..., len - 1`. -/
lemma iterList_spec {m : MetaSlotMap α} (h : Inv m) :
    iterList m = some ((List.range m.idx_to_data.len).filterMap (pick m)) := by
  unfold iterList
  rw [iterFrom_spec h m.idx_to_data.len 0 (by omega), List.range_eq_range']
  simp

/-- The yielded indices form a sublist of the scanned range. -/
lemma map_fst_filterMap_pick_sublist (m : MetaSlotMap α) :
    ∀ l : List Nat, (((l.filterMap (pick m)).map Prod.fst)).Sublist l := by
  intro l
  induction l with
  | nil => simp
  | cons a l ihl =>
    rw [List.filterMap_cons]
    cases hp : pick m a with
    | none =>
      simpa using ihl.cons a
    | some p =>
      have hpa : p.1 = a := pick_fst hp
      simp only [List.map_cons]
      rw [hpa]
      exact ihl.cons₂ a

/-- `contains` answers `true` exactly on in-range keys with an occupied
indirection entry. -/
lemma contains_true_iff (m : MetaSlotMap α) (k : Nat) :
    contains_impl m k = some true ↔
      ∃ e, m.idx_to_data.elements[k]? = some e ∧ e ≠ INVALID_KEY := by
  unfold contains_impl MetaVec.get
  cases hk : m.idx_to_data.elements[k]? with
  | none => simp [hk]
  | some e => simp [hk, bne_iff_ne]

/-- `get` answers a value exactly when `pick` yields it. -/
lemma get_impl_eq_pick (m : MetaSlotMap α) (k : Nat) (v : α) :
    get_impl m k = some (some v) ↔ pick m k = some (k, v) := by
  rw [pick_eq_some]
  unfold get_impl MetaVec.get
  cases hk : m.idx_to_data.elements[k]? with
  | none => simp [hk]
  | some e =>
    by_cases hinv : e = INVALID_KEY
    · subst hinv
      simp [hk]
    · cases hd : m.data.elements[e]? with
      | none => simp [hk, hinv, hd]
      | some d =>
        cases d with
        | none => simp [hk, hinv, hd]
        | some w => simp [hk, hinv, hd, eq_comm]

/-- An in-range `insert_at` succeeds, the inserted value is immediately
readable at the key, and the free-key-slot queue is untouched. -/
lemma insert_at_lt {m : MetaSlotMap α} (h : Inv m) {key : Nat}
    (hk : key < m.capacity_impl) (v : α) :
    ∃ m', insert_at_impl m key v = some (true, m') ∧
      get_impl m' key = some (some v) ∧
      m'.idx_to_data_next_free_index = m.idx_to_data_next_free_index ∧
      m'.capacity_impl = m.capacity_impl := by
  have hklen : key < m.idx_to_data.elements.length := by
    have hteq := h.len_idx
    unfold MetaVec.len at hteq
    omega
  obtain ⟨e, he⟩ : ∃ e, m.idx_to_data.elements[key]? = some e :=
    ⟨_, List.getElem?_eq_getElem hklen⟩
  have hguard : ¬ m.capacity_impl < key := Nat.not_lt.mpr (Nat.le_of_lt hk)
  by_cases hinv : e = INVALID_KEY
  · subst hinv
    obtain ⟨n, rest, hqel⟩ : ∃ n rest, m.data_next_free_index.elements = n :: rest := by
      rcases hq : m.data_next_free_index.elements with _ | ⟨n, rest⟩
      · exact absurd hq (data_queue_ne_nil h he)
      · exact ⟨n, rest, rfl⟩
    obtain ⟨hnc, hnel⟩ := h.qd_mem n (by rw [hqel]; simp)
    have hnlen : n < m.data.elements.length := by
      have hteq := h.len_data
      unfold MetaVec.len at hteq
      omega
    have hnINV : n ≠ INVALID_KEY := Nat.ne_of_lt (Nat.lt_of_lt_of_le hnc h.cap_le)
    refine ⟨{ m with
        idx_to_data := { m.idx_to_data with
          elements := m.idx_to_data.elements.set key n },
        data := { m.data with
          elements := m.data.elements.set n (some v) },
        data_next_free_index := { m.data_next_free_index with
          elements := rest } }, ?_, ?_, rfl, rfl⟩
    · simp [insert_at_impl, MetaVec.get, MetaVec.set, MetaQueue.pop_impl,
        he, hqel, hguard, hklen, hnlen]
    · simp [get_impl, MetaVec.get, List.getElem?_set_self', he, hnINV,
        List.getElem?_eq_getElem hklen, List.getElem?_eq_getElem hnlen]
  · obtain ⟨w, hv⟩ := h.occ key e he hinv
    have helen : e < m.data.elements.length := (List.getElem?_eq_some_iff.mp hv).1
    refine ⟨{ m with
        data := { m.data with
          elements := m.data.elements.set e (some v) } }, ?_, ?_, rfl, rfl⟩
    · simp [insert_at_impl, MetaVec.get, MetaVec.set, he, hguard, hinv, helen]
    · simp [get_impl, MetaVec.get, he, hinv, List.getElem?_set_self', hv]

/-- A non-full slot map accepts `insert` and the returned key immediately
reads back the inserted value. -/
lemma insert_not_full {m : MetaSlotMap α} (h : Inv m)
    (hfull : len_impl m ≠ m.capacity_impl) (v : α) :
    ∃ k m', insert_impl m v = some (some k, m') ∧ get_impl m' k = some (some v) := by
  have hqk : m.idx_to_data_next_free_index.elements ≠ [] := by
    intro hnil
    apply hfull
    unfold len_impl MetaQueue.len
    rw [hnil]
    simp
  obtain ⟨key, rest, hqel⟩ := List.exists_cons_of_ne_nil hqk
  have hkc : key < m.capacity_impl := h.qk_mem key (by rw [hqel]; simp)
  have hpop : m.idx_to_data_next_free_index.pop_impl =
      (some key, { m.idx_to_data_next_free_index with elements := rest }) := by
    unfold MetaQueue.pop_impl
    rw [hqel]
  have h0 : Inv { m with idx_to_data_next_free_index :=
      { m.idx_to_data_next_free_index with elements := rest } } := inv_qk_pop h hpop
  obtain ⟨m', hia, hget, _, _⟩ := insert_at_lt h0 hkc v
  refine ⟨key, m', ?_, hget⟩
  unfold insert_impl
  rw [hpop]
  show (match insert_at_impl _ key v with
    | none => none
    | some (_, m2) => some (some key, m2)) = some (some key, m')
  rw [hia]

/-- `insert` on a full slot map fails without side effects. -/
lemma insert_full {m : MetaSlotMap α} (h : Inv m)
    (hfull : len_impl m = m.capacity_impl) (v : α) :
    insert_impl m v = some (none, m) := by
  have hq0 : m.idx_to_data_next_free_index.elements = [] := by
    unfold len_impl at hfull
    have h1 := h.qk_len
    have h2 : m.idx_to_data_next_free_index.len = 0 := by omega
    have h3 : m.idx_to_data_next_free_index.elements.length = 0 := h2
    exact List.length_eq_zero.mp h3
  unfold insert_impl MetaQueue.pop_impl
  rw [hq0]

/-- Postconditions of a successful `remove`: the key is gone (a second remove
fails, `get` answers absence), the indirection entry is reset to the
sentinel, the value slot is cleared, its index lands in the free-data-slot
queue, and the free-key-slot queue receives a push of the key. -/
lemma remove_true {m : MetaSlotMap α} (h : Inv m) {key : Nat} {m' : MetaSlotMap α}
    (hres : remove_impl m key = some (true, m')) :
    remove_impl m' key = some (false, m') ∧ get_impl m' key = some none ∧
    ∃ data_idx,
      m.idx_to_data.elements[key]? = some data_idx ∧ data_idx ≠ INVALID_KEY ∧
      m'.idx_to_data.elements = m.idx_to_data.elements.set key INVALID_KEY ∧
      m'.data.elements = m.data.elements.set data_idx none ∧
      m'.idx_to_data_next_free_index =
        m.idx_to_data_next_free_index.push_impl key ∧
      m'.data_next_free_index = m.data_next_free_index.push_impl data_idx ∧
      data_idx ∈ m'.data_next_free_index.elements := by
  unfold remove_impl at hres
  split at hres
  · obtain h1 := Option.some.inj hres
    exact absurd (congrArg Prod.fst h1) (by simp)
  · split at hres
    · exact absurd hres (by simp)
    case _ data_idx heq =>
      simp only [MetaVec.get] at heq
      have hkey : key < m.idx_to_data.elements.length :=
        (List.getElem?_eq_some_iff.mp heq).1
      split at hres
      case isFalse hd =>
        obtain h1 := Option.some.inj hres
        exact absurd (congrArg Prod.fst h1) (by simp)
      case isTrue hd =>
        split at hres
        · exact absurd hres (by simp)
        case _ d hset =>
          split at hres
          · exact absurd hres (by simp)
          case _ idx hidx =>
            obtain ⟨hdlt, hdel, hdcap⟩ := vec_set_some hset
            obtain ⟨hklt, hiel, hicap⟩ := vec_set_some hidx
            obtain h1 := Option.some.inj hres
            have hm' := congrArg Prod.snd h1
            obtain ⟨w, hv⟩ := h.occ key data_idx heq hd
            have hdc : data_idx < m.capacity_impl := by
              have hteq := h.len_data
              unfold MetaVec.len at hteq
              omega
            have hdnotq : data_idx ∉ m.data_next_free_index.elements := by
              intro hmem
              obtain ⟨_, hx⟩ := h.qd_mem data_idx hmem
              rw [hv] at hx; simp at hx
            have hqdlt : m.data_next_free_index.elements.length <
                m.data_next_free_index.capacity := by
              have hnd : (data_idx :: m.data_next_free_index.elements).Nodup :=
                List.nodup_cons.mpr ⟨hdnotq, h.qd_nodup⟩
              have hmem : ∀ x ∈ data_idx :: m.data_next_free_index.elements,
                  x < m.capacity_impl := by
                intro x hx
                rcases List.mem_cons.mp hx with rfl | hx
                · exact hdc
                · exact (h.qd_mem x hx).1
              have hlen := nodup_lt_length_le hnd hmem
              rw [h.cap_qd]
              exact Nat.lt_of_succ_le (by simpa using hlen)
            have hqdel : (m.data_next_free_index.push_impl data_idx).elements =
                m.data_next_free_index.elements ++ [data_idx] :=
              queue_push_elements_of_lt hqdlt data_idx
            subst hm'
            have hg2 : ¬ ((MetaVec.len idx) < key) := by
              unfold MetaVec.len
              rw [hiel, List.length_set]
              omega
            refine ⟨?_, ?_, data_idx, heq, hd, hiel, hdel, rfl, rfl, ?_⟩
            · simp [remove_impl, MetaVec.get, hg2, hiel, List.getElem?_set_self',
                List.getElem?_eq_getElem hkey]
            · simp [get_impl, MetaVec.get, hiel, List.getElem?_set_self',
                List.getElem?_eq_getElem hkey]
            · show data_idx ∈ (m.data_next_free_index.push_impl data_idx).elements
              rw [hqdel]
              simp

/-- Neither `get` nor `get_mut` nor `insert_at` can hit a fatal error on an
in-range key when the invariant holds. -/
lemma in_range_no_fatal {m : MetaSlotMap α} (h : Inv m) {key : Nat}
    (hk : key < m.capacity_impl) (v : α) :
    get_impl m key ≠ none ∧ get_mut_impl m key ≠ none ∧
      insert_at_impl m key v ≠ none := by
  have hklen : key < m.idx_to_data.elements.length := by
    have hteq := h.len_idx
    unfold MetaVec.len at hteq
    omega
  obtain ⟨e, he⟩ : ∃ e, m.idx_to_data.elements[key]? = some e :=
    ⟨_, List.getElem?_eq_getElem hklen⟩
  have hget : get_impl m key ≠ none := by
    by_cases hinv : e = INVALID_KEY
    · subst hinv
      simp [get_impl, MetaVec.get, he]
    · obtain ⟨w, hv⟩ := h.occ key e he hinv
      simp [get_impl, MetaVec.get, he, hinv, hv]
  refine ⟨hget, ?_, ?_⟩
  · by_cases hinv : e = INVALID_KEY
    · subst hinv
      simp [get_mut_impl, MetaVec.get, he]
    · obtain ⟨w, hv⟩ := h.occ key e he hinv
      simp [get_mut_impl, MetaVec.get, he, hinv, hv]
  · obtain ⟨m', hia, _, _, _⟩ := insert_at_lt h hk v
    rw [hia]
    simp

/-- The defining equation of `len`: it is the capacity minus the length of the
free-key-slot queue, and the latter never exceeds the capacity. -/
lemma len_add_queue (h : Inv m) :
    len_impl m + m.idx_to_data_next_free_index.len = m.capacity_impl := by
  unfold len_impl
  exact Nat.sub_add_cancel h.qk_len

/-- C1 (counterexample): `contains` on a freshly constructed capacity-1 slot
map, queried at the out-of-range key 1, performs an out-of-bounds
indirection-array access (the fatal outcome `none`) instead of returning the
failure value `false`; the claim that every out-of-range key is signalled
purely through the return value is false. -/
theorem C1_contains_out_of_range_cex :
    contains_impl (newSlotMap 1 : MetaSlotMap Nat) 1 = none := by decide

/-- C1 (amended): for keys strictly greater than the capacity, `insert_at`
and `remove` do not abort and signal failure purely through the return value
`false`, leaving the map unchanged; `contains`, `get` and `get_mut` have no
range guard at all, and `insert_at`/`remove` check with a strict
greater-than, so every key at or above the capacity reaches an unchecked
out-of-bounds indirection-array access (the fatal outcome `none`) in
`contains`/`get`/`get_mut`, as do `insert_at` and `remove` at key exactly
equal to the capacity. -/
theorem C1_out_of_range_access {α : Type} {m : MetaSlotMap α} (h : Reachable m)
    (key : Nat) (v : α) (hk : capacity_impl m ≤ key) :
    contains_impl m key = none ∧ get_impl m key = none ∧
    get_mut_impl m key = none ∧
    (capacity_impl m < key →
      insert_at_impl m key v = some (false, m) ∧
      remove_impl m key = some (false, m)) ∧
    (key = capacity_impl m →
      insert_at_impl m key v = none ∧ remove_impl m key = none) := by
  have hInvM := reach_inv h
  have hlen : m.idx_to_data.elements.length ≤ key := by
    have hteq := hInvM.len_idx
    unfold MetaVec.len at hteq
    omega
  have hnone : m.idx_to_data.elements[key]? = none := List.getElem?_eq_none hlen
  refine ⟨?_, ?_, ?_, ?_, ?_⟩
  · simp [contains_impl, MetaVec.get, hnone]
  · simp [get_impl, MetaVec.get, hnone]
  · simp [get_mut_impl, MetaVec.get, hnone]
  · intro hlt
    constructor
    · simp [insert_at_impl, hlt]
    · have hglen : MetaVec.len m.idx_to_data < key := by
        have hteq := hInvM.len_idx
        unfold MetaVec.len at hteq ⊢
        omega
      simp [remove_impl, hglen]
  · intro hkeq
    constructor
    · have hng : ¬ m.capacity_impl < key := by omega
      simp [insert_at_impl, MetaVec.get, hng, hnone]
    · have hng : ¬ MetaVec.len m.idx_to_data < key := by
        have hteq := hInvM.len_idx
        unfold MetaVec.len at hteq ⊢
        omega
      simp [remove_impl, MetaVec.get, hng, hnone]

/-- C1 (witness): the amended statement at the fresh capacity-1 map and the
out-of-range key 2. -/
theorem C1_out_of_range_access_witness :
    contains_impl (newSlotMap 1 : MetaSlotMap Nat) 2 = none ∧
    get_impl (newSlotMap 1 : MetaSlotMap Nat) 2 = none ∧
    get_mut_impl (newSlotMap 1 : MetaSlotMap Nat) 2 = none ∧
    (capacity_impl (newSlotMap 1 : MetaSlotMap Nat) < 2 →
      insert_at_impl (newSlotMap 1 : MetaSlotMap Nat) 2 7 =
        some (false, newSlotMap 1) ∧
      remove_impl (newSlotMap 1 : MetaSlotMap Nat) 2 =
        some (false, newSlotMap 1)) ∧
    (2 = capacity_impl (newSlotMap 1 : MetaSlotMap Nat) →
      insert_at_impl (newSlotMap 1 : MetaSlotMap Nat) 2 7 = none ∧
      remove_impl (newSlotMap 1 : MetaSlotMap Nat) 2 = none) :=
  C1_out_of_range_access (Reachable.init 1 (by decide)) 2 7 (by decide)

/-- C2 (code bug): `insert_at` at key exactly equal to the capacity passes the
strict `key > capacity` guard and performs an out-of-bounds indirection-array
access (the fatal outcome `none`) instead of returning `false` as the
operation's own documentation and the claim require: on a capacity-1 map,
`insert_at(1, 42)` is a fatal error, not a `false` return. -/
theorem C2_insert_at_boundary_bug :
    insert_at_impl (newSlotMap 1 : MetaSlotMap Nat) 1 42 = none := by decide

/-- C3: in every reachable state, `len()` plus the length of the
free-key-slot queue equals `capacity()` (`len` is defined as the capacity
minus that queue length, and the capacity-bounded queue never exceeds the
capacity). -/
theorem C3_len_plus_free_keys_eq_capacity {α : Type} {m : MetaSlotMap α}
    (h : Reachable m) :
    len_impl m + m.idx_to_data_next_free_index.len = capacity_impl m :=
  len_add_queue (reach_inv h)

/-- C3 (witness): the invariant at the fresh capacity-2 map. -/
theorem C3_len_plus_free_keys_eq_capacity_witness :
    len_impl (newSlotMap 2 : MetaSlotMap Nat) +
      (newSlotMap 2 : MetaSlotMap Nat).idx_to_data_next_free_index.len =
      capacity_impl (newSlotMap 2 : MetaSlotMap Nat) :=
  C3_len_plus_free_keys_eq_capacity (Reachable.init 2 (by decide))

/-- C4: in every reachable state, every key-indirection entry that is not the
sentinel references an in-range value slot holding a present value whose
index is absent from the free-data-slot queue; consequently the `expect`
branches of `get`/`get_mut`, the scan of `iter`, and the free-data-queue pop
inside `insert_at` can never hit a fatal error on an in-range key. -/
theorem C4_indirection_consistency {α : Type} {m : MetaSlotMap α}
    (h : Reachable m) :
    (∀ i e : Nat, m.idx_to_data.elements[i]? = some e → e ≠ INVALID_KEY →
      e < capacity_impl m ∧ (∃ v, m.data.elements[e]? = some (some v)) ∧
        e ∉ m.data_next_free_index.elements) ∧
    (∀ (key : Nat) (v : α), key < capacity_impl m →
      get_impl m key ≠ none ∧ get_mut_impl m key ≠ none ∧
        insert_at_impl m key v ≠ none) ∧
    iterList m ≠ none := by
  have hInvM := reach_inv h
  refine ⟨?_, ?_, ?_⟩
  · intro i e hi hne
    obtain ⟨v, hv⟩ := hInvM.occ i e hi hne
    have hec : e < capacity_impl m := by
      have hteq := hInvM.len_data
      unfold MetaVec.len at hteq
      have := (List.getElem?_eq_some_iff.mp hv).1
      omega
    refine ⟨hec, ⟨v, hv⟩, ?_⟩
    intro hmem
    obtain ⟨_, hx⟩ := hInvM.qd_mem e hmem
    rw [hv] at hx
    simp at hx
  · intro key v hk
    exact in_range_no_fatal hInvM hk v
  · rw [iterList_spec hInvM]
    simp

/-- C4 (witness): the consistency statement at the fresh capacity-1 map. -/
theorem C4_indirection_consistency_witness :
    (∀ i e : Nat,
      (newSlotMap 1 : MetaSlotMap Nat).idx_to_data.elements[i]? = some e →
      e ≠ INVALID_KEY →
      e < capacity_impl (newSlotMap 1 : MetaSlotMap Nat) ∧
        (∃ v, (newSlotMap 1 : MetaSlotMap Nat).data.elements[e]? = some (some v)) ∧
        e ∉ (newSlotMap 1 : MetaSlotMap Nat).data_next_free_index.elements) ∧
    (∀ key v : Nat, key < capacity_impl (newSlotMap 1 : MetaSlotMap Nat) →
      get_impl (newSlotMap 1 : MetaSlotMap Nat) key ≠ none ∧
      get_mut_impl (newSlotMap 1 : MetaSlotMap Nat) key ≠ none ∧
      insert_at_impl (newSlotMap 1 : MetaSlotMap Nat) key v ≠ none) ∧
    iterList (newSlotMap 1 : MetaSlotMap Nat) ≠ none :=
  C4_indirection_consistency (Reachable.init 1 (by decide))

/-- C5: in every reachable state that is not full, `insert(v)` returns a key
under which `get` immediately reads back the inserted value. -/
theorem C5_insert_get_roundtrip {α : Type} {m : MetaSlotMap α}
    (h : Reachable m) (hfull : len_impl m ≠ capacity_impl m) (v : α) :
    ∃ k m', insert_impl m v = some (some k, m') ∧
      get_impl m' k = some (some v) :=
  insert_not_full (reach_inv h) hfull v

/-- C5 (witness): the round trip at the fresh capacity-3 map with value 7. -/
theorem C5_insert_get_roundtrip_witness :
    ∃ k m', insert_impl (newSlotMap 3 : MetaSlotMap Nat) 7 = some (some k, m') ∧
      get_impl m' k = some (some 7) :=
  C5_insert_get_roundtrip (Reachable.init 3 (by decide)) (by decide) 7

/-- C6: in every reachable full state (`len() = capacity()`), `insert`
returns no key and leaves the whole state unchanged. -/
theorem C6_full_insert_noop {α : Type} {m : MetaSlotMap α}
    (h : Reachable m) (hfull : len_impl m = capacity_impl m) (v : α) :
    insert_impl m v = some (none, m) :=
  insert_full (reach_inv h) hfull v

/-- C6 (witness): the no-op at the (trivially full) fresh capacity-0 map. -/
theorem C6_full_insert_noop_witness :
    insert_impl (newSlotMap 0 : MetaSlotMap Nat) 5 = some (none, newSlotMap 0) :=
  C6_full_insert_noop (Reachable.init 0 (by decide)) (by decide) 5

/-- Post-state of one step, for the concrete counterexample trace of C7. -/
def insertS (m : MetaSlotMap Nat) (v : Nat) : Option (MetaSlotMap Nat) :=
  (insert_impl m v).map Prod.snd

/-- Post-state of one `insert_at` step, for the counterexample trace of C7. -/
def insertAtS (m : MetaSlotMap Nat) (k v : Nat) : Option (MetaSlotMap Nat) :=
  (insert_at_impl m k v).map Prod.snd

/-- Post-state of one `remove` step, for the counterexample trace of C7. -/
def removeS (m : MetaSlotMap Nat) (k : Nat) : Option (MetaSlotMap Nat) :=
  (remove_impl m k).map Prod.snd

/-- C7 (counterexample): a reachable capacity-2 trace — `insert 10`;
`insert_at 1 20` (which occupies key 1 without popping it from the
free-key-slot queue); `remove 1` (pushing a duplicate of 1); `insert_at 1 30`
— after which `remove 0` succeeds (returns `true`) yet the free-key-slot
queue afterwards is `[1, 1]`: the removed key's index 0 was dropped because
the queue was already full, so the successful remove did not return 0 to the
free-key-slot queue as the claim states. -/
theorem C7_remove_free_key_queue_cex :
    ((insertS (newSlotMap 2) 10).bind (fun m => insertAtS m 1 20)
      |>.bind (fun m => removeS m 1)
      |>.bind (fun m => insertAtS m 1 30)
      |>.bind (fun m => (remove_impl m 0).map
          (fun r => (r.1, r.2.idx_to_data_next_free_index.elements))))
    = some (true, [1, 1]) ∧ (0 : Nat) ∉ [1, 1] := by decide

/-- C7 (amended): in every reachable state, if `remove(k)` returns `true`
then an immediately following `remove(k)` returns `false` and `get(k)`
returns absence; the successful remove clears the referenced value slot,
resets the indirection entry to the sentinel, returns the value slot's index
to the free-data-slot queue (that push always succeeds), and pushes `k`'s
index onto the free-key-slot queue — a push that the capacity-bounded queue
drops when it is already full, which is reachable only through direct
`insert_at` calls on free keys. -/
theorem C7_remove_idempotent {α : Type} {m m' : MetaSlotMap α} {key : Nat}
    (h : Reachable m) (hres : remove_impl m key = some (true, m')) :
    remove_impl m' key = some (false, m') ∧ get_impl m' key = some none ∧
    ∃ data_idx,
      m.idx_to_data.elements[key]? = some data_idx ∧ data_idx ≠ INVALID_KEY ∧
      m'.idx_to_data.elements = m.idx_to_data.elements.set key INVALID_KEY ∧
      m'.data.elements = m.data.elements.set data_idx none ∧
      m'.idx_to_data_next_free_index =
        m.idx_to_data_next_free_index.push_impl key ∧
      m'.data_next_free_index = m.data_next_free_index.push_impl data_idx ∧
      data_idx ∈ m'.data_next_free_index.elements :=
  remove_true (reach_inv h) hres

/-- State of a capacity-1 map after `insert_at 0 9`: key 0 occupied (and, as
`insert_at` leaves the free-key-slot queue alone, still queued as free). -/
def c7_state1 : MetaSlotMap Nat :=
  ⟨⟨[0], 1⟩, ⟨[0], 1⟩, ⟨[some 9], 1⟩, ⟨[], 1⟩⟩

/-- State of `c7_state1` after the successful `remove 0`. -/
def c7_state2 : MetaSlotMap Nat :=
  ⟨⟨[INVALID_KEY], 1⟩, ⟨[0], 1⟩, ⟨[none], 1⟩, ⟨[0], 1⟩⟩

/-- C7 (witness): the amended statement along the concrete reachable
transition `remove 0 : c7_state1 → c7_state2`. -/
theorem C7_remove_idempotent_witness :
    remove_impl c7_state2 0 = some (false, c7_state2) ∧
    get_impl c7_state2 0 = some none ∧
    ∃ data_idx,
      c7_state1.idx_to_data.elements[0]? = some data_idx ∧
      data_idx ≠ INVALID_KEY ∧
      c7_state2.idx_to_data.elements =
        c7_state1.idx_to_data.elements.set 0 INVALID_KEY ∧
      c7_state2.data.elements = c7_state1.data.elements.set data_idx none ∧
      c7_state2.idx_to_data_next_free_index =
        c7_state1.idx_to_data_next_free_index.push_impl 0 ∧
      c7_state2.data_next_free_index =
        c7_state1.data_next_free_index.push_impl data_idx ∧
      data_idx ∈ c7_state2.data_next_free_index.elements :=
  C7_remove_idempotent
    (Reachable.insert_at_step 0 9 (Reachable.init 1 (by decide))
      (show insert_at_impl (newSlotMap 1 : MetaSlotMap Nat) 0 9 =
        some (true, c7_state1) by decide))
    (by decide)

/-- C8: in every reachable state, running the iterator to exhaustion hits no
fatal error and yields exactly the pairs `(k, v)` with `contains k = true`
and `get k = v`, with the keys in strictly ascending numeric order.  The
model makes the remaining clauses structural: `iterList` is a finite pure
list computed from the state (no mutation) whose scan starts at key 0. -/
theorem C8_iter_spec {α : Type} {m : MetaSlotMap α} (h : Reachable m) :
    ∃ l, iterList m = some l ∧
      (∀ (k : Nat) (v : α), (k, v) ∈ l ↔
        (contains_impl m k = some true ∧ get_impl m k = some (some v))) ∧
      l.Pairwise (fun a b => a.1 < b.1) := by
  have hInvM := reach_inv h
  refine ⟨(List.range m.idx_to_data.len).filterMap (pick m),
    iterList_spec hInvM, ?_, ?_⟩
  · intro k v
    constructor
    · intro hmem
      obtain ⟨a, ha, hpa⟩ := List.mem_filterMap.mp hmem
      obtain rfl : k = a := pick_fst hpa
      exact ⟨(contains_true_iff m k).mpr
          (by
            obtain ⟨e, w, he, hne, _, _⟩ := pick_eq_some.mp hpa
            exact ⟨e, he, hne⟩),
        (get_impl_eq_pick m k v).mpr hpa⟩
    · rintro ⟨hcont, hget⟩
      have hp := (get_impl_eq_pick m k v).mp hget
      refine List.mem_filterMap.mpr ⟨k, ?_, hp⟩
      obtain ⟨e, w, he, _, _, _⟩ := pick_eq_some.mp hp
      have hk : k < m.idx_to_data.elements.length :=
        (List.getElem?_eq_some_iff.mp he).1
      exact List.mem_range.mpr hk
  · exact List.pairwise_map.mp
      (List.Pairwise.sublist
        (map_fst_filterMap_pick_sublist m (List.range m.idx_to_data.len))
        (List.pairwise_lt_range m.idx_to_data.len))

/-- C8 (witness): the iteration specification at the fresh capacity-2 map. -/
theorem C8_iter_spec_witness :
    ∃ l, iterList (newSlotMap 2 : MetaSlotMap Nat) = some l ∧
      (∀ k v : Nat, (k, v) ∈ l ↔
        (contains_impl (newSlotMap 2 : MetaSlotMap Nat) k = some true ∧
          get_impl (newSlotMap 2 : MetaSlotMap Nat) k = some (some v))) ∧
      l.Pairwise (fun a b => a.1 < b.1) :=
  C8_iter_spec (Reachable.init 2 (by decide))

/-- C9: immediately after construction with capacity `c` (for the heap
variant; a successful `init` of the relocatable variant runs the same
pre-fill, see `newSlotMap`), every indirection entry is the sentinel, both
free queues hold exactly `0, ..., c - 1` in ascending order (`List.range c`)
and without duplicates, every value slot is empty, `len() = 0`,
`capacity() = c`, and the data-model invariant holds. -/
theorem C9_fresh_state {α : Type} (c : Nat) (hc : c ≤ INVALID_KEY) :
    (newSlotMap c : MetaSlotMap α).idx_to_data.elements =
      List.replicate c INVALID_KEY ∧
    (newSlotMap c : MetaSlotMap α).idx_to_data_next_free_index.elements =
      List.range c ∧
    (newSlotMap c : MetaSlotMap α).data_next_free_index.elements =
      List.range c ∧
    (newSlotMap c : MetaSlotMap α).data.elements =
      List.replicate c (none : Option α) ∧
    len_impl (newSlotMap c : MetaSlotMap α) = 0 ∧
    capacity_impl (newSlotMap c : MetaSlotMap α) = c ∧
    (newSlotMap c : MetaSlotMap α).idx_to_data_next_free_index.elements.Nodup ∧
    (newSlotMap c : MetaSlotMap α).data_next_free_index.elements.Nodup ∧
    Inv (newSlotMap c : MetaSlotMap α) := by
  have he := newSlotMap_eq (α := α) c
  refine ⟨?_, ?_, ?_, ?_, ?_, ?_, ?_, ?_, inv_new c hc⟩
  · rw [he]
  · rw [he]
  · rw [he]
  · rw [he]
  · rw [he]
    unfold len_impl capacity_impl MetaQueue.len
    simp
  · rw [he]
    rfl
  · rw [he]
    exact List.nodup_range c
  · rw [he]
    exact List.nodup_range c

/-- C9 (witness): the fresh-state description at capacity 3. -/
theorem C9_fresh_state_witness :
    (3 : Nat) ≤ INVALID_KEY ∧
    ((newSlotMap 3 : MetaSlotMap Nat).idx_to_data.elements =
      List.replicate 3 INVALID_KEY ∧
    (newSlotMap 3 : MetaSlotMap Nat).idx_to_data_next_free_index.elements =
      List.range 3 ∧
    (newSlotMap 3 : MetaSlotMap Nat).data_next_free_index.elements =
      List.range 3 ∧
    (newSlotMap 3 : MetaSlotMap Nat).data.elements =
      List.replicate 3 (none : Option Nat) ∧
    len_impl (newSlotMap 3 : MetaSlotMap Nat) = 0 ∧
    capacity_impl (newSlotMap 3 : MetaSlotMap Nat) = 3 ∧
    (newSlotMap 3 : MetaSlotMap Nat).idx_to_data_next_free_index.elements.Nodup ∧
    (newSlotMap 3 : MetaSlotMap Nat).data_next_free_index.elements.Nodup ∧
    Inv (newSlotMap 3 : MetaSlotMap Nat)) :=
  ⟨by decide, C9_fresh_state 3 (by decide)⟩

/-- C10: in every reachable state, `remove` at a key strictly greater than
the capacity (which equals the indirection-array length) returns `false` and
leaves the map unchanged, while a key exactly equal to the capacity passes
the strict greater-than guard and reaches the indirection-array access, an
out-of-bounds access (the fatal outcome `none`). -/
theorem C10_remove_guard_boundary {α : Type} {m : MetaSlotMap α}
    (h : Reachable m) (key : Nat) :
    (capacity_impl m < key → remove_impl m key = some (false, m)) ∧
    (key = capacity_impl m → remove_impl m key = none) := by
  have hInvM := reach_inv h
  constructor
  · intro hlt
    have hglen : MetaVec.len m.idx_to_data < key := by
      have hteq := hInvM.len_idx
      unfold MetaVec.len at hteq ⊢
      omega
    simp [remove_impl, hglen]
  · intro hkeq
    have hlen : m.idx_to_data.elements.length ≤ key := by
      have hteq := hInvM.len_idx
      unfold MetaVec.len at hteq
      omega
    have hnone : m.idx_to_data.elements[key]? = none := List.getElem?_eq_none hlen
    have hng : ¬ MetaVec.len m.idx_to_data < key := by
      have hteq := hInvM.len_idx
      unfold MetaVec.len at hteq ⊢
      omega
    simp [remove_impl, MetaVec.get, hng, hnone]

/-- C10 (witness): the guard boundary at the fresh capacity-2 map and key 3. -/
theorem C10_remove_guard_boundary_witness :
    (capacity_impl (newSlotMap 2 : MetaSlotMap Nat) < 3 →
      remove_impl (newSlotMap 2 : MetaSlotMap Nat) 3 =
        some (false, newSlotMap 2)) ∧
    (3 = capacity_impl (newSlotMap 2 : MetaSlotMap Nat) →
      remove_impl (newSlotMap 2 : MetaSlotMap Nat) 3 = none) :=
  C10_remove_guard_boundary (Reachable.init 2 (by decide)) 3

end MetaSlotMap

end SlotMapVerif
